import Mathlib

/-!
Verification of the JSON core and server lifecycle of this repository.

Shallow embedding of:
- `src/cpp/core/json/Json.cpp` — the option-list encoding (`toJsonArray`,
  `optionsFromJson`), the bulk extraction helpers (`fillSetString`,
  `fillVectorString`, `fillVectorInt`, `fillMap`) and the parse/write layer.
- `src/cpp/server/ServerMain.cpp` — the signal-wait loop (`waitForSignals`),
  the not-found handler (`pageNotFoundHandler`) and the URI handler
  registrations (`httpServerAddHandlers`).

C++ `std::string` values are embedded as `List Char` (named `JString`), so that
the character-level scanning done by the option codec is explicit.
-/

/-- A C++ `std::string`, embedded as its character list. -/
abbrev JString := List Char

/-- The JSON value variant. Modelled from the spec: the concrete value type
(`json_spirit::Value` behind `core/json/Json.hpp`) is not part of the excerpt;
the spec describes "a variant over {Null, Boolean, Integer, Real, String,
Array, Object}" where arrays are ordered sequences and objects are
insertion-ordered key/value sequences. A `Real` is carried as an exact decimal
`mantissa × 10^-(fracDigits+1)` (its on-wire digits), so that serialization is
exact; the excerpt contains no floating-point representation. -/
inductive JsonValue where
  | nullV : JsonValue
  | boolV (b : Bool) : JsonValue
  | intV (n : Int) : JsonValue
  | realV (mantissa : Int) (fracDigits : Nat) : JsonValue
  | strV (s : JString) : JsonValue
  | arrV (elems : List JsonValue) : JsonValue
  | objV (members : List (JString × JsonValue)) : JsonValue

/-- The type tags of `json_spirit::Value_type`, re-exported at the top of
Json.cpp as `ObjectType`, `ArrayType`, `StringType`, ... -/
inductive JsonType where
  | objType | arrayType | strType | boolType | intType | realType | nullType
deriving DecidableEq

/-- `Value::type()`. -/
def JsonValue.type : JsonValue → JsonType
  | .nullV => .nullType
  | .boolV _ => .boolType
  | .intV _ => .intType
  | .realV _ _ => .realType
  | .strV _ => .strType
  | .arrV _ => .arrayType
  | .objV _ => .objType

def StringType : JsonType := .strType
def IntegerType : JsonType := .intType
def ArrayType : JsonType := .arrayType

/-- `isType<std::string>(value)`: true exactly when the tag is the string tag.
Modelled from the spec: `isType<T>(Value) -> bool` with getters that "fail
(return false / populate nothing) when the tag mismatches". -/
def isTypeString (v : JsonValue) : Bool := v.type = StringType

/-- `isType<int>(value)`. -/
def isTypeInt (v : JsonValue) : Bool := v.type = IntegerType

/-- `value.get_str()` — only ever called behind a string-type check in the
translated code. -/
def get_str : JsonValue → JString
  | .strV s => s
  | _ => []

/-- `value.get_int()` — only ever called behind an int-type check. -/
def get_int : JsonValue → Int
  | .intV n => n
  | _ => 0

/-- `value.get_array()`. Modelled from the spec: the getter itself lives in
json_spirit (not in the excerpt); a C++ getter returning `const Array&` can
only "fail rather than corrupt memory" (spec §3) by raising, so the mismatch
case is an `Except.error`, which models the exception escaping the caller. -/
def get_array : JsonValue → Except String (List JsonValue)
  | .arrV elems => .ok elems
  | _ => .error "value type mismatch"

/-- `boost::replace_all_copy(s, "=", "\\=")` in `toJsonArray`: every `=` gets a
backslash written in front of it. -/
def escapeEq : JString → JString
  | [] => []
  | c :: rest => if c = '=' then '\\' :: '=' :: escapeEq rest else c :: escapeEq rest

/-- `boost::replace_all(s, "\\=", "=")` in `optionsFromJson`: left-to-right,
non-overlapping replacement of `\=` by `=`. -/
def unescapeEq : JString → JString
  | [] => []
  | [c] => [c]
  | a :: b :: rest =>
    if a = '\\' ∧ b = '=' then '=' :: unescapeEq rest
    else a :: unescapeEq (b :: rest)

/-- `boost::regex_search(optionStr, results, boost::regex("[^\\\\]="))`:
position of the leftmost match of "a character that is not a backslash,
followed by `=`" (the position of the non-backslash character). -/
def findUnescEq : JString → Option Nat
  | [] => none
  | [_] => none
  | a :: b :: rest =>
    if a ≠ '\\' ∧ b = '=' then some 0
    else (findUnescEq (b :: rest)).map (· + 1)

/-- One element of `optionsFromJson(Array)`: split at the first unescaped `=`
(`substr(0, position+1)` / `substr(position+2)`) and unescape both halves; with
no unescaped `=`, the whole string is an unescaped key with empty value. -/
def splitOption (s : JString) : JString × JString :=
  match findUnescEq s with
  | some p => (unescapeEq (s.take (p + 1)), unescapeEq (s.drop (p + 2)))
  | none => (unescapeEq s, [])

/-- One element of `toJsonArray`: `argVal = escapedKey`, and
`argVal += "=" + escapedValue` only when the escaped value is nonempty. -/
def encodeOption (p : JString × JString) : JString :=
  let escapedKey := escapeEq p.1
  let escapedValue := escapeEq p.2
  if escapedValue = [] then escapedKey else escapedKey ++ '=' :: escapedValue

/-- `json::Array toJsonArray(const std::vector<std::pair<...>>& options)`. -/
def toJsonArray (options : List (JString × JString)) : List JsonValue :=
  options.map (fun p => .strV (encodeOption p))

/-- `json::Object toJsonObject(options)`: inserts each pair in order. -/
def toJsonObject (options : List (JString × JString)) : List (JString × JsonValue) :=
  options.map (fun p => (p.1, .strV p.2))

/-- `optionsFromJson(const json::Object&)`: keeps the members whose value is a
string, in member order. -/
def optionsFromJsonObject : List (JString × JsonValue) → List (JString × JString)
  | [] => []
  | (name, value) :: rest =>
    if value.type = StringType then (name, get_str value) :: optionsFromJsonObject rest
    else optionsFromJsonObject rest

/-- `optionsFromJson(const json::Array&)`: non-string elements are skipped
(`continue`); each string element is split at its first unescaped `=`. -/
def optionsFromJsonArray : List JsonValue → List (JString × JString)
  | [] => []
  | value :: rest =>
    if value.type ≠ StringType then optionsFromJsonArray rest
    else splitOption (get_str value) :: optionsFromJsonArray rest

/-- `bool fillSetString(const Array& array, std::set<std::string>* pSet)`:
checks each element's type before inserting it; returns false at the first
mismatch, leaving previously inserted elements in the set. -/
def fillSetString : List JsonValue → Finset JString → Bool × Finset JString
  | [], pSet => (true, pSet)
  | v :: rest, pSet =>
    if isTypeString v then fillSetString rest (insert (get_str v) pSet)
    else (false, pSet)

/-- `bool fillVectorString(const Array& array, std::vector<std::string>* pVector)`. -/
def fillVectorString : List JsonValue → List JString → Bool × List JString
  | [], pVector => (true, pVector)
  | v :: rest, pVector =>
    if isTypeString v then fillVectorString rest (pVector ++ [get_str v])
    else (false, pVector)

/-- `bool fillVectorInt(const Array& array, std::vector<int>* pVector)`. -/
def fillVectorInt : List JsonValue → List Int → Bool × List Int
  | [], pVector => (true, pVector)
  | v :: rest, pVector =>
    if isTypeInt v then fillVectorInt rest (pVector ++ [get_int v])
    else (false, pVector)

/-- `(*pMap)[key] = strings` on a `std::map`: overwrite the key if present,
insert it otherwise. -/
def mapSet (m : List (JString × List JString)) (key : JString) (val : List JString) :
    List (JString × List JString) :=
  match m with
  | [] => [(key, val)]
  | (k, v) :: rest =>
    if k = key then (key, val) :: rest else (k, v) :: mapSet rest key val

/-- `bool fillMap(const Object& object, std::map<...,...>* pMap)`: for each
member it calls `get_array()` on the member's value with no preceding type
check — on a non-array value this raises (the `Except.error` case, which
escapes the function), unlike the sibling fill helpers. -/
def fillMap : List (JString × JsonValue) → List (JString × List JString) →
    Except String (Bool × List (JString × List JString))
  | [], pMap => .ok (true, pMap)
  | (k, v) :: rest, pMap =>
    match get_array v with
    | .error e => .error e
    | .ok array =>
      match fillVectorString array [] with
      | (false, _) => .ok (false, pMap)
      | (true, strings) => fillMap rest (mapSet pMap k strings)

/-! ### Signal/lifecycle controller (`waitForSignals` in ServerMain.cpp) -/

/-- Linux signal numbers used by the wait loop. -/
def SIGHUP : Nat := 1
def SIGINT : Nat := 2
def SIGQUIT : Nat := 3
def SIGTERM : Nat := 15
def SIGCHLD : Nat := 17

/-- Observable actions of one iteration of the `waitForSignals` loop body:
collaborator calls and OS calls, in program order. -/
inductive Effect where
  | notifySIGCHLD : Effect
  | overlayShutdown : Effect
  | clearSignalMask : Effect
  | restoreDefaultDisposition (sig : Nat) : Effect
  | raiseSignal (sig : Nat) : Effect
  | reloadConfiguration : Effect
  | logUnexpectedSignal (sig : Nat) : Effect
deriving DecidableEq

/-- What the process does after one loop iteration: keep waiting in the loop
(state Running), or die from the re-raised signal now that its disposition is
the OS default and the mask is cleared, or exit with a status code (never
produced by the loop body — `main` exits with a status only outside it). -/
inductive LoopOutcome where
  | running : LoopOutcome
  | terminatedBySignal (sig : Nat) : LoopOutcome
  | exitedWithStatus (code : Nat) : LoopOutcome
deriving DecidableEq

/-- The body of the `for(;;)` loop in `waitForSignals`, for one signal
delivered by `sigwait`: the `if/else if` chain on `sig` from the source,
returning the effects performed (in order) and the resulting state. -/
def signalStep (sig : Nat) : List Effect × LoopOutcome :=
  if sig = SIGCHLD then
    ([.notifySIGCHLD], .running)
  else if sig = SIGINT ∨ sig = SIGQUIT ∨ sig = SIGTERM then
    ([.overlayShutdown, .clearSignalMask, .restoreDefaultDisposition sig, .raiseSignal sig],
     .terminatedBySignal sig)
  else if sig = SIGHUP then
    ([.reloadConfiguration], .running)
  else
    ([.logUnexpectedSignal sig], .running)

/-! ### HTTP handler registration (`httpServerAddHandlers`, `pageNotFoundHandler`) -/

/-- An HTTP response, reduced to the fields `pageNotFoundHandler` touches. -/
structure Response where
  statusCode : Nat
  contentType : String
  body : String

/-- `pResponse->setStatusCode(code)`. -/
def setStatusCode (code : Nat) (r : Response) : Response :=
  { r with statusCode := code }

def NotFound : Nat := 404

/-- `pageNotFoundHandler`: renders the 404 template over the request URI
(`renderTemplate` stands for the external `core::text::renderTemplate`; its
result is an error or the rendered body). A render error is only logged; a
rendered body sets the content type and body; the 404 status is set either
way, as the final statement of the handler. -/
def pageNotFoundHandler (renderTemplate : String → Except String String)
    (requestUri : String) (pResponse : Response) : Response :=
  let r :=
    match renderTemplate requestUri with
    | .error _ => pResponse
    | .ok body => { pResponse with contentType := "text/html", body := body }
  setStatusCode NotFound r

/-- Which registration call in `httpServerAddHandlers` installed the entry:
`uri_handlers::add`, `uri_handlers::addProxyHandler` or
`uri_handlers::addBlocking`. -/
inductive RegKind where
  | asyncHandler | proxyKindHandler | blockingHandler
deriving DecidableEq

/-- The function each path is bound to (the wrappers `secureAsyncJsonRpcHandler`,
`secureAsyncHttpHandler` (with its outside-workbench flag), etc. applied in the
source). -/
inductive RegTarget where
  | proxyRpcRequest
  | proxyEventsRequest
  | proxyContentRequest (outsideWorkbench : Bool)
  | proxyContentUpload
  | secureFileHandler (outsideWorkbench : Bool)
  | proxyLocalhostRequest (ipv6 : Bool)
  | handleLogRequest
  | handleMetaRequest
  | progressTemplateRequest
  | handleBrowserUnsupportedRequest
  | pageNotFound
deriving DecidableEq

/-- The unsupported-browser path constant `kBrowserUnsupported`. Modelled from
the spec: its definition (ServerBrowser.hpp) is not in the excerpt; the spec
only calls it "a fixed unsupported-browser path", so the value is an opaque
fixed path. -/
def kBrowserUnsupported : String := "/unsupported_browser"

/-- `httpServerAddHandlers()`: the registration table, in source order. The
`/p/` and `/p6/` proxy entries are registered only when
`server::options().wwwProxyLocalhost()` is set. -/
def httpServerAddHandlers (wwwProxyLocalhost : Bool) :
    List (String × RegKind × RegTarget) :=
  [("/rpc", .asyncHandler, .proxyRpcRequest),
   ("/events", .asyncHandler, .proxyEventsRequest),
   ("/graphics", .asyncHandler, .proxyContentRequest false),
   ("/upload", .asyncHandler, .proxyContentUpload),
   ("/export", .asyncHandler, .proxyContentRequest false),
   ("/source", .asyncHandler, .proxyContentRequest false),
   ("/content", .asyncHandler, .proxyContentRequest false),
   ("/diff", .asyncHandler, .proxyContentRequest false),
   ("/file_show", .asyncHandler, .proxyContentRequest false),
   ("/view_pdf", .asyncHandler, .proxyContentRequest false),
   ("/agreement", .asyncHandler, .proxyContentRequest false),
   ("/presentation", .asyncHandler, .proxyContentRequest false),
   ("/pdf_js", .asyncHandler, .proxyContentRequest false),
   ("/mathjax", .asyncHandler, .proxyContentRequest false),
   ("/connections", .asyncHandler, .proxyContentRequest false),
   ("/theme", .asyncHandler, .proxyContentRequest false),
   ("/python", .asyncHandler, .proxyContentRequest false),
   ("/help", .asyncHandler, .proxyContentRequest true),
   ("/files", .asyncHandler, .proxyContentRequest true),
   ("/custom", .asyncHandler, .proxyContentRequest true),
   ("/session", .asyncHandler, .proxyContentRequest true),
   ("/docs", .asyncHandler, .secureFileHandler true),
   ("/html_preview", .asyncHandler, .proxyContentRequest true),
   ("/rmd_output", .asyncHandler, .proxyContentRequest true),
   ("/grid_data", .asyncHandler, .proxyContentRequest true),
   ("/grid_resource", .asyncHandler, .proxyContentRequest true),
   ("/chunk_output", .asyncHandler, .proxyContentRequest true),
   ("/profiles", .asyncHandler, .proxyContentRequest true),
   ("/rmd_data", .asyncHandler, .proxyContentRequest true),
   ("/profiler_resource", .asyncHandler, .proxyContentRequest true)] ++
  (if wwwProxyLocalhost then
    [("/p/", .proxyKindHandler, .proxyLocalhostRequest false),
     ("/p6/", .proxyKindHandler, .proxyLocalhostRequest true)]
   else []) ++
  [("/log", .blockingHandler, .handleLogRequest),
   ("/meta", .blockingHandler, .handleMetaRequest),
   ("/progress", .blockingHandler, .progressTemplateRequest),
   (kBrowserUnsupported, .blockingHandler, .handleBrowserUnsupportedRequest),
   ("/templates", .blockingHandler, .pageNotFound)]

/-! ### The wire codec (`parse` / `write`)

Modelled from the spec: Json.cpp delegates `parse` to `json_spirit::read` and
`write` to `json_spirit::write`, neither of which is in the excerpt. The spec
fixes the contract: `parse(input) -> Value | ParseError` and `write(Value) ->
string` is the compact serialization, deterministic, insertion-ordered for
objects, and `parse(write(V)) == V` is expected to hold. The writer below is
the standard compact JSON rendering of the data model of §3; the parser is a
recursive-descent reader of that grammar (compact output contains no
whitespace, so no whitespace skipping arises on round trips). Fallibility is
`Option`: `none` is the ParseError / false return. -/

def isDigitChar (c : Char) : Bool := 48 ≤ c.toNat && c.toNat ≤ 57

/-- The character of the decimal digit `d`. -/
def digitChar (d : Nat) : Char := Char.ofNat (48 + d)

/-- Decimal digit characters of `n`, most significant first (empty for 0). -/
def natDigitsBE (n : Nat) : JString := ((Nat.digits 10 n).reverse).map (fun d => digitChar d)

/-- Decimal digit characters of `n`, with `0` rendered as "0". -/
def natDigitsDisplay (n : Nat) : JString := if n = 0 then ['0'] else natDigitsBE n

/-- Compact rendering of an integer value. -/
def writeIntChars (n : Int) : JString :=
  (if n < 0 then ['-'] else []) ++ natDigitsDisplay n.natAbs

/-- Left-pad a digit string with zeros up to length `len`. -/
def padDigits (len : Nat) (ds : JString) : JString :=
  List.replicate (len - ds.length) '0' ++ ds

/-- Compact rendering of a real value `mantissa × 10^-(fracDigits+1)`: the
mantissa's digits with a decimal point placed before the last `fracDigits + 1`
of them (zero-padded so that at least one digit stands on each side). -/
def writeRealChars (m : Int) (fracDigits : Nat) : JString :=
  let ds := padDigits (fracDigits + 2) (natDigitsBE m.natAbs)
  (if m < 0 then ['-'] else []) ++
    ds.take (ds.length - (fracDigits + 1)) ++ '.' :: ds.drop (ds.length - (fracDigits + 1))

/-- JSON escaping of one string character. -/
def escapeJsonChar (c : Char) : JString :=
  if c = '"' then ['\\', '"']
  else if c = '\\' then ['\\', '\\']
  else if c = '\n' then ['\\', 'n']
  else if c = '\t' then ['\\', 't']
  else if c = '\r' then ['\\', 'r']
  else if c = Char.ofNat 8 then ['\\', 'b']
  else if c = Char.ofNat 12 then ['\\', 'f']
  else [c]

/-- JSON escaping of a whole string body. -/
def escapeJsonList : JString → JString
  | [] => []
  | c :: rest => escapeJsonChar c ++ escapeJsonList rest

/-- Compact rendering of a JSON string literal. -/
def writeStringChars (s : JString) : JString := '"' :: (escapeJsonList s ++ ['"'])

mutual

/-- Compact serialization of a value. -/
def writeValue : JsonValue → JString
  | .nullV => ['n', 'u', 'l', 'l']
  | .boolV true => ['t', 'r', 'u', 'e']
  | .boolV false => ['f', 'a', 'l', 's', 'e']
  | .intV n => writeIntChars n
  | .realV m e => writeRealChars m e
  | .strV s => writeStringChars s
  | .arrV elems => '[' :: (writeElems elems ++ [']'])
  | .objV members => '{' :: (writeMembers members ++ ['}'])

/-- Comma-separated renderings of array elements. -/
def writeElems : List JsonValue → JString
  | [] => []
  | [v] => writeValue v
  | v :: rest => writeValue v ++ ',' :: writeElems rest

/-- Comma-separated `"key":value` renderings of object members. -/
def writeMembers : List (JString × JsonValue) → JString
  | [] => []
  | [(k, v)] => writeStringChars k ++ ':' :: writeValue v
  | (k, v) :: rest => writeStringChars k ++ ':' :: writeValue v ++ ',' :: writeMembers rest

end

/-- Inverse of `escapeJsonChar` on the character after a backslash. -/
def unescapeJsonChar (c : Char) : Option Char :=
  if c = '"' then some '"'
  else if c = '\\' then some '\\'
  else if c = '/' then some '/'
  else if c = 'n' then some '\n'
  else if c = 't' then some '\t'
  else if c = 'r' then some '\r'
  else if c = 'b' then some (Char.ofNat 8)
  else if c = 'f' then some (Char.ofNat 12)
  else none

/-- Parse a string body after its opening quote, up to the closing quote. -/
def parseStringBody : JString → Option (JString × JString)
  | [] => none
  | c :: rest =>
    if c = '"' then some ([], rest)
    else if c = '\\' then
      match rest with
      | [] => none
      | e :: rest2 =>
        match unescapeJsonChar e, parseStringBody rest2 with
        | some u, some (s, r) => some (u :: s, r)
        | _, _ => none
    else
      match parseStringBody rest with
      | some (s, r) => some (c :: s, r)
      | none => none

/-- Split a leading run of decimal digits off the input. -/
def takeDigits : JString → JString × JString
  | [] => ([], [])
  | c :: rest =>
    if isDigitChar c then
      let p := takeDigits rest
      (c :: p.1, p.2)
    else ([], c :: rest)

/-- The number a big-endian digit-character run denotes. -/
def digitsToNat (ds : JString) : Nat :=
  ds.foldl (fun acc c => 10 * acc + (c.toNat - 48)) 0

/-- Parse an unsigned number: a digit run, with an optional fraction making it
a real (`fracDigits + 1` digits after the point) instead of an integer. -/
def parseUnsigned (s : JString) : Option (JsonValue × JString) :=
  let ds := (takeDigits s).1
  let r1 := (takeDigits s).2
  if ds = [] then none
  else
    match r1 with
    | [] => some (.intV ((digitsToNat ds : Nat) : Int), [])
    | c :: r2 =>
      if c = '.' then
        let fs := (takeDigits r2).1
        let r3 := (takeDigits r2).2
        if fs = [] then none
        else some (.realV ((digitsToNat (ds ++ fs) : Nat) : Int) (fs.length - 1), r3)
      else some (.intV ((digitsToNat ds : Nat) : Int), c :: r2)

/-- Negate a parsed numeric value (after a leading minus sign). -/
def negJson : JsonValue → JsonValue
  | .intV n => .intV (-n)
  | .realV m e => .realV (-m) e
  | v => v

/-- Parse a number with its optional leading minus sign. -/
def parseNumber (s : JString) : Option (JsonValue × JString) :=
  match s with
  | [] => none
  | c :: r =>
    if c = '-' then (parseUnsigned r).map (fun p => (negJson p.1, p.2))
    else parseUnsigned (c :: r)

mutual

/-- Recursive-descent value parser; `fuel` decreases on each recursive call
and only bounds the recursion (any `fuel` beyond the input length suffices). -/
def parseValue : Nat → JString → Option (JsonValue × JString)
  | 0, _ => none
  | _ + 1, [] => none
  | fuel + 1, c :: rest =>
    if c = 'n' then
      match rest with
      | 'u' :: 'l' :: 'l' :: r => some (.nullV, r)
      | _ => none
    else if c = 't' then
      match rest with
      | 'r' :: 'u' :: 'e' :: r => some (.boolV true, r)
      | _ => none
    else if c = 'f' then
      match rest with
      | 'a' :: 'l' :: 's' :: 'e' :: r => some (.boolV false, r)
      | _ => none
    else if c = '"' then
      match parseStringBody rest with
      | some (s, r) => some (.strV s, r)
      | none => none
    else if c = '[' then
      match rest with
      | [] => none
      | c2 :: r2 =>
        if c2 = ']' then some (.arrV [], r2)
        else
          match parseElems fuel (c2 :: r2) with
          | some (es, r) => some (.arrV es, r)
          | none => none
    else if c = '{' then
      match rest with
      | [] => none
      | c2 :: r2 =>
        if c2 = '}' then some (.objV [], r2)
        else
          match parseMembers fuel (c2 :: r2) with
          | some (ms, r) => some (.objV ms, r)
          | none => none
    else parseNumber (c :: rest)

/-- One-or-more comma-separated elements, consuming the closing `]`. -/
def parseElems : Nat → JString → Option (List JsonValue × JString)
  | 0, _ => none
  | fuel + 1, s =>
    match parseValue fuel s with
    | none => none
    | some (v, r1) =>
      match r1 with
      | ',' :: r2 =>
        match parseElems fuel r2 with
        | some (vs, r3) => some (v :: vs, r3)
        | none => none
      | ']' :: r2 => some ([v], r2)
      | _ => none

/-- One-or-more comma-separated `"key":value` members, consuming the `}`. -/
def parseMembers : Nat → JString → Option (List (JString × JsonValue) × JString)
  | 0, _ => none
  | fuel + 1, s =>
    match s with
    | '"' :: r =>
      match parseStringBody r with
      | none => none
      | some (k, r1) =>
        match r1 with
        | ':' :: r2 =>
          match parseValue fuel r2 with
          | none => none
          | some (v, r3) =>
            match r3 with
            | ',' :: r4 =>
              match parseMembers fuel r4 with
              | some (ms, r5) => some ((k, v) :: ms, r5)
              | none => none
            | '}' :: r4 => some ([(k, v)], r4)
            | _ => none
        | _ => none
    | _ => none

end

/-- `std::string write(const Value& value)`. -/
def write (value : JsonValue) : JString := writeValue value

/-- `bool parse(const std::string& input, Value* pValue)`: `none` is the false
return (parse failure, no value produced); the whole input must be consumed. -/
def parse (input : JString) : Option JsonValue :=
  match parseValue (input.length + 1) input with
  | some (value, []) => some value
  | _ => none

/-- A remainder that cannot extend a rendered number: empty, or starting with
neither a digit nor a decimal point. Every delimiter the writer places after a
number (`,`, `]`, `}`, end of input) qualifies. -/
def numDelim : JString → Prop
  | [] => True
  | c :: _ => isDigitChar c = false ∧ c ≠ '.'

/-! ## Lemmas about the option escape codec -/

/-- Escaping produces the empty string only from the empty string. -/
theorem escapeEq_nil_iff (s : JString) : escapeEq s = [] ↔ s = [] := by
  cases s with
  | nil => simp [escapeEq]
  | cons c r => simp only [escapeEq]; split <;> simp

/-- An escaped string never starts with `=` (every `=` gains a backslash). -/
theorem escapeEq_head (s : JString) (b : Char) (t : JString)
    (h : escapeEq s = b :: t) : b ≠ '=' := by
  cases s with
  | nil => simp [escapeEq] at h
  | cons c r =>
    simp only [escapeEq] at h
    split at h
    · exact (List.cons.injEq .. ▸ h).1 ▸ by decide
    · next hc => exact ((List.cons.injEq .. ▸ h).1 ▸ hc)


/-- Unfolding of `escapeEq` on a leading `=`. -/
theorem escapeEq_eq_cons (r : JString) : escapeEq ('=' :: r) = '\\' :: '=' :: escapeEq r := by
  simp [escapeEq]

/-- Unfolding of `escapeEq` on a leading non-`=` character. -/
theorem escapeEq_ne_cons (c : Char) (r : JString) (h : c ≠ '=') :
    escapeEq (c :: r) = c :: escapeEq r := by
  simp [escapeEq, h]

/-- Unfolding of `unescapeEq` on two leading characters. -/
theorem unescapeEq_cons_cons (a b : Char) (rest : JString) :
    unescapeEq (a :: b :: rest) =
      if a = '\\' ∧ b = '=' then '=' :: unescapeEq rest
      else a :: unescapeEq (b :: rest) := by
  simp only [unescapeEq]

/-- Unfolding of `findUnescEq` on two leading characters. -/
theorem findUnescEq_cons_cons (a b : Char) (rest : JString) :
    findUnescEq (a :: b :: rest) =
      if a ≠ '\\' ∧ b = '=' then some 0
      else (findUnescEq (b :: rest)).map (· + 1) := by
  simp only [findUnescEq]

/-- Unescaping inverts escaping. -/
theorem unescapeEq_escapeEq (s : JString) : unescapeEq (escapeEq s) = s := by
  induction s with
  | nil => rfl
  | cons c r ih =>
    by_cases hc : c = '='
    · subst hc
      rw [escapeEq_eq_cons, unescapeEq_cons_cons, if_pos ⟨rfl, rfl⟩, ih]
    · rw [escapeEq_ne_cons c r hc]
      cases hE : escapeEq r with
      | nil =>
        rw [(escapeEq_nil_iff r).mp hE]
        simp [unescapeEq]
      | cons b t =>
        have hb : b ≠ '=' := escapeEq_head r b t hE
        rw [hE] at ih
        rw [unescapeEq_cons_cons, if_neg (fun hand => hb hand.2), ih]

/-- An escaped string contains no unescaped `=` at all. -/
theorem findUnescEq_escapeEq (s : JString) : findUnescEq (escapeEq s) = none := by
  induction s with
  | nil => rfl
  | cons c r ih =>
    by_cases hc : c = '='
    · subst hc
      rw [escapeEq_eq_cons, findUnescEq_cons_cons, if_neg (by simp)]
      cases hE : escapeEq r with
      | nil => simp [findUnescEq]
      | cons b t =>
        have hb : b ≠ '=' := escapeEq_head r b t hE
        rw [hE] at ih
        rw [findUnescEq_cons_cons, if_neg (fun hand => hb hand.2), ih]
        rfl
    · rw [escapeEq_ne_cons c r hc]
      cases hE : escapeEq r with
      | nil => simp [findUnescEq]
      | cons b t =>
        have hb : b ≠ '=' := escapeEq_head r b t hE
        rw [hE] at ih
        rw [findUnescEq_cons_cons, if_neg (fun hand => hb hand.2), ih]
        rfl

/-- With a nonempty key not ending in a backslash, the first unescaped `=` of
`escapedKey ++ "=" ++ anything` is exactly the separator position. -/
theorem findUnescEq_sep (s u : JString) (hne : s ≠ [])
    (hlast : s.getLast? ≠ some '\\') :
    findUnescEq (escapeEq s ++ '=' :: u) = some ((escapeEq s).length - 1) := by
  induction s with
  | nil => exact absurd rfl hne
  | cons c r ih =>
    cases r with
    | nil =>
      have hc : c ≠ '\\' := by simpa using hlast
      by_cases he : c = '='
      · subst he
        simp [escapeEq, findUnescEq]
      · simp [escapeEq, he, findUnescEq, hc]
    | cons c2 r2 =>
      have hlast2 : (c2 :: r2).getLast? ≠ some '\\' := by
        rwa [List.getLast?_cons_cons] at hlast
      have ihh := ih (List.cons_ne_nil c2 r2) hlast2
      obtain ⟨b, t, hE⟩ : ∃ b t, escapeEq (c2 :: r2) = b :: t :=
        List.exists_cons_of_ne_nil
          (fun hE => List.cons_ne_nil c2 r2 ((escapeEq_nil_iff _).mp hE))
      have hb : b ≠ '=' := escapeEq_head _ b t hE
      by_cases hc : c = '='
      · subst hc
        rw [hE] at ihh
        rw [escapeEq_eq_cons, hE]
        simp only [List.cons_append] at ihh ⊢
        rw [findUnescEq_cons_cons, if_neg (by simp)]
        rw [findUnescEq_cons_cons, if_neg (fun hand => hb hand.2)]
        have h3 : b :: (t ++ '=' :: u) = (b :: t) ++ '=' :: u := by simp
        rw [h3]
        rw [show findUnescEq ((b :: t) ++ '=' :: u) = some ((b :: t).length - 1) from ihh]
        simp only [Option.map_some', List.length_cons]
        congr 1
      · rw [hE] at ihh
        rw [escapeEq_ne_cons c _ hc, hE]
        simp only [List.cons_append] at ihh ⊢
        rw [findUnescEq_cons_cons, if_neg (fun hand => hb hand.2)]
        have h3 : b :: (t ++ '=' :: u) = (b :: t) ++ '=' :: u := by simp
        rw [h3]
        rw [show findUnescEq ((b :: t) ++ '=' :: u) = some ((b :: t).length - 1) from ihh]
        simp only [Option.map_some', List.length_cons]
        congr 1

/-- Round trip of a single encoded pair, for a pair with an empty value or a
nonempty key that does not end in a backslash. -/
theorem splitOption_encodeOption (k v : JString)
    (h : v = [] ∨ (k ≠ [] ∧ k.getLast? ≠ some '\\')) :
    splitOption (encodeOption (k, v)) = (k, v) := by
  by_cases hv : v = []
  · subst hv
    have he : encodeOption (k, []) = escapeEq k := by
      simp [encodeOption, escapeEq]
    rw [he]
    simp [splitOption, findUnescEq_escapeEq, unescapeEq_escapeEq]
  · rcases h with hv' | ⟨hk, hlast⟩
    · exact absurd hv' hv
    · have hEv : escapeEq v ≠ [] := fun hE => hv ((escapeEq_nil_iff v).mp hE)
      have hEk : escapeEq k ≠ [] := fun hE => hk ((escapeEq_nil_iff k).mp hE)
      have hL : 1 ≤ (escapeEq k).length := List.length_pos.mpr hEk
      have he : encodeOption (k, v) = escapeEq k ++ '=' :: escapeEq v := by
        simp [encodeOption, hEv]
      have hf := findUnescEq_sep k (escapeEq v) hk hlast
      rw [he]
      simp only [splitOption, hf]
      have htake : (escapeEq k ++ '=' :: escapeEq v).take ((escapeEq k).length - 1 + 1) =
          escapeEq k := by
        rw [show (escapeEq k).length - 1 + 1 = (escapeEq k).length from by omega]
        exact List.take_left ..
      have hdrop : (escapeEq k ++ '=' :: escapeEq v).drop ((escapeEq k).length - 1 + 2) =
          escapeEq v := by
        rw [show (escapeEq k).length - 1 + 2 = (escapeEq k).length + 1 from by omega]
        rw [show escapeEq k ++ '=' :: escapeEq v = (escapeEq k ++ ['=']) ++ escapeEq v
            from by simp]
        exact List.drop_left' (by simp)
      rw [htake, hdrop, unescapeEq_escapeEq, unescapeEq_escapeEq]

/-- Escaping is the identity on strings without `=`. -/
theorem escapeEq_no_eq (s : JString) (h : '=' ∉ s) : escapeEq s = s := by
  induction s with
  | nil => rfl
  | cons c r ih =>
    simp only [List.mem_cons, not_or] at h
    obtain ⟨h1, h2⟩ := h
    rw [escapeEq_ne_cons c r (fun hh => h1 hh.symm), ih h2]

/-- No unescaped `=` is found when no `=` occurs beyond the first character. -/
theorem findUnescEq_no_eq (t : JString) (h : '=' ∉ t) :
    ∀ a, findUnescEq (a :: t) = none := by
  induction t with
  | nil => intro a; rfl
  | cons b r ih =>
    intro a
    simp only [List.mem_cons, not_or] at h
    obtain ⟨h1, h2⟩ := h
    rw [findUnescEq_cons_cons, if_neg (fun hand => h1 hand.2.symm)]
    rw [ih (by simpa using h2) b]
    rfl

/-- Unescaping is the identity on strings without `=`. -/
theorem unescapeEq_no_eq (s : JString) (h : '=' ∉ s) : unescapeEq s = s := by
  induction s with
  | nil => rfl
  | cons a r ih =>
    simp only [List.mem_cons, not_or] at h
    obtain ⟨h1, h2⟩ := h
    cases r with
    | nil => rfl
    | cons b r2 =>
      have hb : b ≠ '=' := by
        intro hh
        exact h2 (by simp [hh])
      rw [unescapeEq_cons_cons, if_neg (fun hand => hb hand.2)]
      rw [ih h2]

/-- Unfolding of `optionsFromJsonArray` on a leading string element. -/
theorem optionsFromJsonArray_strV_cons (s : JString) (rest : List JsonValue) :
    optionsFromJsonArray (.strV s :: rest) = splitOption s :: optionsFromJsonArray rest := by
  simp [optionsFromJsonArray, JsonValue.type, get_str, StringType]

/-! ## The claims -/

/-- C1 (counterexample): the option round trip fails inside the claim's stated
domain. The pair `("\", "=")` has a value containing `=`; it encodes to the
string `\=\=`, in which no `=` is preceded by a non-backslash character, so
decoding takes the key-only branch and unescapes the whole string, yielding
`("==", "")`, not the original pair. -/
theorem optionsFromJson_toJsonArray_counterexample :
    optionsFromJsonArray (toJsonArray [(['\\'], ['='])]) = [(['=', '='], [])] ∧
    optionsFromJsonArray (toJsonArray [(['\\'], ['='])]) ≠ [(['\\'], ['='])] := by
  decide

/-- C1 (amended): for every ordered list of (key, value) string pairs in which
each pair either has an empty value, or has a nonempty key that does not end
in a backslash, decoding the encoded form returns the original list:
`optionsFromJson(toJsonArray(pairs)) == pairs`. (The original claim's domain —
pairs whose keys or values contain `=` — admits pairs with backslashes or
empty keys, on which the split-on-first-unescaped-`=` rule does not invert the
encoding; see the counterexample.) -/
theorem optionsFromJson_toJsonArray (opts : List (JString × JString))
    (h : ∀ p ∈ opts, p.2 = [] ∨ (p.1 ≠ [] ∧ p.1.getLast? ≠ some '\\')) :
    optionsFromJsonArray (toJsonArray opts) = opts := by
  induction opts with
  | nil => rfl
  | cons p rest ih =>
    obtain ⟨k, v⟩ := p
    have hp := h (k, v) (List.mem_cons_self ..)
    have hrest := fun q hq => h q (List.mem_cons_of_mem _ hq)
    show optionsFromJsonArray (.strV (encodeOption (k, v)) :: toJsonArray rest) =
      (k, v) :: rest
    rw [optionsFromJsonArray_strV_cons, splitOption_encodeOption k v hp, ih hrest]

/-- C1 (witness): the amended round trip evaluated on the concrete list
`[("a", "b=c"), ("x=", "")]`, whose pairs contain `=` characters. -/
theorem optionsFromJson_toJsonArray_witness :
    (∀ p ∈ [(['a'], ['b', '=', 'c']), (['x', '='], ([] : JString))],
       p.2 = [] ∨ (p.1 ≠ [] ∧ p.1.getLast? ≠ some '\\')) ∧
    optionsFromJsonArray (toJsonArray [(['a'], ['b', '=', 'c']), (['x', '='], [])]) =
      [(['a'], ['b', '=', 'c']), (['x', '='], [])] :=
  ⟨by decide, optionsFromJson_toJsonArray _ (by decide)⟩

/-- C2 (code bug): `fillMap` on the object `{"a": "x"}`, whose member value is
a string and not an array. The unchecked `get_array()` call raises a type
mismatch that escapes `fillMap` (the `.error` result), instead of the claimed
`false` return — unlike the sibling fill helpers, which check `isType` first. -/
theorem fillMap_raises_on_non_array :
    fillMap [(['a'], .strV ['x'])] [] = .error "value type mismatch" := rfl

/-- C3: in state Running, a delivered SIGINT, SIGQUIT or SIGTERM makes the
loop body call the shutdown collaborator exactly once, clear the signal mask,
restore the default disposition of that same signal, re-raise that same signal
to the process, and the iteration ends with the process terminated by the
signal — in particular not exited with status 0. -/
theorem signalStep_shutdown (sig : Nat)
    (h : sig = SIGINT ∨ sig = SIGQUIT ∨ sig = SIGTERM) :
    signalStep sig =
      ([.overlayShutdown, .clearSignalMask, .restoreDefaultDisposition sig,
        .raiseSignal sig], .terminatedBySignal sig) ∧
    (signalStep sig).1.count .overlayShutdown = 1 ∧
    (signalStep sig).2 ≠ .exitedWithStatus 0 := by
  obtain rfl | rfl | rfl := h <;> refine ⟨by decide, by decide, ?_⟩ <;> decide

/-- C3 (witness): the shutdown transition evaluated at SIGTERM. -/
theorem signalStep_shutdown_witness :
    (SIGTERM = SIGINT ∨ SIGTERM = SIGQUIT ∨ SIGTERM = SIGTERM) ∧
    (signalStep SIGTERM =
      ([.overlayShutdown, .clearSignalMask, .restoreDefaultDisposition SIGTERM,
        .raiseSignal SIGTERM], .terminatedBySignal SIGTERM) ∧
     (signalStep SIGTERM).1.count .overlayShutdown = 1 ∧
     (signalStep SIGTERM).2 ≠ .exitedWithStatus 0) :=
  ⟨by decide, signalStep_shutdown SIGTERM (by decide)⟩

/-- C6: for any delivered signal other than SIGINT, SIGQUIT and SIGTERM the
loop stays in Running and never calls the shutdown collaborator: SIGCHLD only
notifies the session manager, SIGHUP only invokes the configuration reload,
and any other signal only logs a warning. -/
theorem signalStep_non_shutdown (sig : Nat)
    (h1 : sig ≠ SIGINT) (h2 : sig ≠ SIGQUIT) (h3 : sig ≠ SIGTERM) :
    (signalStep sig).2 = .running ∧
    Effect.overlayShutdown ∉ (signalStep sig).1 ∧
    (sig = SIGCHLD → (signalStep sig).1 = [.notifySIGCHLD]) ∧
    (sig = SIGHUP → (signalStep sig).1 = [.reloadConfiguration]) ∧
    (sig ≠ SIGCHLD → sig ≠ SIGHUP → (signalStep sig).1 = [.logUnexpectedSignal sig]) := by
  by_cases hc : sig = SIGCHLD
  · subst hc
    exact ⟨rfl, by decide, fun _ => rfl, fun h => absurd h (by decide),
           fun h _ => absurd rfl h⟩
  · by_cases hh : sig = SIGHUP
    · subst hh
      exact ⟨rfl, by decide, fun h => absurd h (by decide), fun _ => rfl,
             fun _ h => absurd rfl h⟩
    · have hnotd : ¬(sig = SIGINT ∨ sig = SIGQUIT ∨ sig = SIGTERM) := by tauto
      have hstep : signalStep sig = ([.logUnexpectedSignal sig], .running) := by
        simp only [signalStep]
        rw [if_neg hc, if_neg hnotd, if_neg hh]
      refine ⟨by rw [hstep], by rw [hstep]; simp, fun h => absurd h hc,
              fun h => absurd h hh, fun _ _ => by rw [hstep]⟩

/-- C6 (witness): the SIGCHLD transition: session-lifecycle notification only,
state stays Running. -/
theorem signalStep_non_shutdown_witness :
    (SIGCHLD ≠ SIGINT ∧ SIGCHLD ≠ SIGQUIT ∧ SIGCHLD ≠ SIGTERM) ∧
    ((signalStep SIGCHLD).2 = .running ∧
     Effect.overlayShutdown ∉ (signalStep SIGCHLD).1 ∧
     (SIGCHLD = SIGCHLD → (signalStep SIGCHLD).1 = [.notifySIGCHLD]) ∧
     (SIGCHLD = SIGHUP → (signalStep SIGCHLD).1 = [.reloadConfiguration]) ∧
     (SIGCHLD ≠ SIGCHLD → SIGCHLD ≠ SIGHUP →
        (signalStep SIGCHLD).1 = [.logUnexpectedSignal SIGCHLD])) :=
  ⟨by decide, signalStep_non_shutdown SIGCHLD (by decide) (by decide) (by decide)⟩

/-- C7: the single pair `("foo", "bar=baz")` encodes to the one-element array
`["foo=bar\=baz"]` (the `=` of the value escaped), and decoding that array
returns the single pair `("foo", "bar=baz")`. -/
theorem foo_bar_baz_roundtrip :
    toJsonArray [(['f', 'o', 'o'], ['b', 'a', 'r', '=', 'b', 'a', 'z'])] =
      [.strV ['f', 'o', 'o', '=', 'b', 'a', 'r', '\\', '=', 'b', 'a', 'z']] ∧
    optionsFromJsonArray
        [.strV ['f', 'o', 'o', '=', 'b', 'a', 'r', '\\', '=', 'b', 'a', 'z']] =
      [(['f', 'o', 'o'], ['b', 'a', 'r', '=', 'b', 'a', 'z'])] :=
  ⟨rfl, by decide⟩

/-- C9: neither overload of `optionsFromJson` can report failure: each returns,
for every input, exactly the list of pairs decoded from the string-typed
members/elements, in input order; entries of any other type are skipped. -/
theorem optionsFromJson_total :
    (∀ members : List (JString × JsonValue),
       optionsFromJsonObject members =
         (members.filter (fun m => isTypeString m.2)).map (fun m => (m.1, get_str m.2))) ∧
    (∀ elems : List JsonValue,
       optionsFromJsonArray elems =
         (elems.filter isTypeString).map (fun v => splitOption (get_str v))) := by
  constructor
  · intro members
    induction members with
    | nil => rfl
    | cons m rest ih =>
      obtain ⟨n, v⟩ := m
      by_cases hs : v.type = StringType
      · simp [optionsFromJsonObject, hs, isTypeString, List.filter_cons, ih]
      · simp [optionsFromJsonObject, hs, isTypeString, List.filter_cons, ih]
  · intro elems
    induction elems with
    | nil => rfl
    | cons v rest ih =>
      by_cases hs : v.type = StringType
      · simp [optionsFromJsonArray, hs, isTypeString, List.filter_cons, ih]
      · simp [optionsFromJsonArray, hs, isTypeString, List.filter_cons, ih]

/-- C4: each bulk extraction helper returns true exactly when every element
has the expected type; the output container receives the values of the longest
all-well-typed leading run (everything, in array order, on success; on failure
the elements preceding the first mismatch remain — all-or-nothing is not
guaranteed). -/
theorem fill_helpers_characterization :
    (∀ (arr : List JsonValue) (acc : List JString),
       fillVectorString arr acc =
         (arr.all isTypeString, acc ++ (arr.takeWhile isTypeString).map get_str)) ∧
    (∀ (arr : List JsonValue) (acc : List Int),
       fillVectorInt arr acc =
         (arr.all isTypeInt, acc ++ (arr.takeWhile isTypeInt).map get_int)) ∧
    (∀ (arr : List JsonValue) (acc : Finset JString),
       fillSetString arr acc =
         (arr.all isTypeString,
          acc ∪ ((arr.takeWhile isTypeString).map get_str).toFinset)) := by
  refine ⟨?_, ?_, ?_⟩
  · intro arr
    induction arr with
    | nil => intro acc; simp [fillVectorString]
    | cons v rest ih =>
      intro acc
      by_cases hs : isTypeString v
      · simp [fillVectorString, hs, List.takeWhile_cons, List.all_cons, ih]
      · simp [fillVectorString, hs, List.takeWhile_cons, List.all_cons]
  · intro arr
    induction arr with
    | nil => intro acc; simp [fillVectorInt]
    | cons v rest ih =>
      intro acc
      by_cases hs : isTypeInt v
      · simp [fillVectorInt, hs, List.takeWhile_cons, List.all_cons, ih]
      · simp [fillVectorInt, hs, List.takeWhile_cons, List.all_cons]
  · intro arr
    induction arr with
    | nil => intro acc; simp [fillSetString]
    | cons v rest ih =>
      intro acc
      by_cases hs : isTypeString v
      · simp [fillSetString, hs, List.takeWhile_cons, List.all_cons, ih,
              List.toFinset_cons, Finset.insert_union, Finset.union_insert]
      · simp [fillSetString, hs, List.takeWhile_cons, List.all_cons]

/-- C8: the `/templates` path is registered (by `addBlocking`) to
`pageNotFoundHandler` and to nothing else, whether or not localhost proxying
is enabled; and `pageNotFoundHandler` sets status 404 on every request — for
every request URI and whether or not the 404 template renders. -/
theorem templates_always_404 :
    (∀ wwwProxyLocalhost,
       (httpServerAddHandlers wwwProxyLocalhost).filter (fun e => e.1 = "/templates") =
         [("/templates", RegKind.blockingHandler, RegTarget.pageNotFound)]) ∧
    (∀ (renderTemplate : String → Except String String) (requestUri : String)
       (pResponse : Response),
       (pageNotFoundHandler renderTemplate requestUri pResponse).statusCode = NotFound) := by
  constructor
  · intro b
    cases b <;> decide
  · intro renderTemplate requestUri pResponse
    cases h : renderTemplate requestUri <;>
      simp [pageNotFoundHandler, setStatusCode, h]

/-- C10: a pair with an empty key and a nonempty, `=`-free value `v` encodes
to the string `"=" ++ v`, and decoding that string yields the pair
`("=" ++ v, "")` — the leading `=` at position 0 is never taken as the
delimiter, because the split pattern needs a preceding non-backslash
character, so such pairs do not round-trip to themselves. -/
theorem empty_key_option (v : JString) (h1 : v ≠ []) (h2 : '=' ∉ v) :
    toJsonArray [([], v)] = [.strV ('=' :: v)] ∧
    optionsFromJsonArray [.strV ('=' :: v)] = [('=' :: v, [])] := by
  have hEv : escapeEq v = v := escapeEq_no_eq v h2
  constructor
  · show [JsonValue.strV (encodeOption ([], v))] = [.strV ('=' :: v)]
    have : encodeOption ([], v) = '=' :: v := by
      simp [encodeOption, escapeEq, hEv, h1]
    rw [this]
  · rw [optionsFromJsonArray_strV_cons]
    have hfind : findUnescEq ('=' :: v) = none := findUnescEq_no_eq v h2 '='
    have hunesc : unescapeEq ('=' :: v) = '=' :: v := by
      cases v with
      | nil => rfl
      | cons b r =>
        rw [unescapeEq_cons_cons, if_neg (by rintro ⟨hl, hr⟩; exact absurd hl (by decide))]
        rw [unescapeEq_no_eq (b :: r) h2]
    simp [splitOption, hfind, hunesc, optionsFromJsonArray]

/-- C10 (witness): the empty-key behaviour evaluated at the value "x". -/
theorem empty_key_option_witness :
    ((['x'] : JString) ≠ [] ∧ '=' ∉ (['x'] : JString)) ∧
    (toJsonArray [([], ['x'])] = [.strV ('=' :: ['x'])] ∧
     optionsFromJsonArray [.strV ('=' :: ['x'])] = [('=' :: ['x'], [])]) :=
  ⟨by decide, empty_key_option ['x'] (by decide) (by decide)⟩

/-! ## Lemmas for the wire-codec round trip -/

/-- The character of a decimal digit carries the digit and is a digit. -/
theorem digitChar_spec (d : Nat) (h : d < 10) :
    (digitChar d).toNat - 48 = d ∧ isDigitChar (digitChar d) = true := by
  interval_cases d <;> refine ⟨by decide, by decide⟩

/-- Every character of a digit rendering is a digit. -/
theorem natDigitsBE_all_digits (n : Nat) : ∀ c ∈ natDigitsBE n, isDigitChar c = true := by
  intro c hc
  simp only [natDigitsBE, List.mem_map, List.mem_reverse] at hc
  obtain ⟨d, hd, rfl⟩ := hc
  exact (digitChar_spec d (Nat.digits_lt_base (by norm_num) hd)).2

/-- A nonzero number has a nonempty digit rendering. -/
theorem natDigitsBE_ne_nil (n : Nat) (h : n ≠ 0) : natDigitsBE n ≠ [] := by
  simp [natDigitsBE, Nat.digits_ne_nil_iff_ne_zero, h]

/-- Folding the digit characters of a little-endian digit list (rendered most
significant first) recovers its value, with the accumulator scaled past it. -/
theorem digitsToNat_accum (L : List Nat) (hL : ∀ d ∈ L, d < 10) :
    ∀ acc : Nat,
      (L.reverse.map (fun d => digitChar d)).foldl
          (fun a c => 10 * a + (c.toNat - 48)) acc =
        acc * 10 ^ L.length + Nat.ofDigits 10 L := by
  induction L with
  | nil => intro acc; simp
  | cons d L2 ih =>
    intro acc
    have hd : d < 10 := hL d (by simp)
    have hL2 : ∀ x ∈ L2, x < 10 := fun x hx => hL x (by simp [hx])
    simp only [List.reverse_cons, List.map_append, List.foldl_append, List.map_cons,
               List.map_nil, List.foldl_cons, List.foldl_nil]
    rw [ih hL2 acc, (digitChar_spec d hd).1, Nat.ofDigits_cons]
    simp only [List.length_cons, pow_succ]
    ring

/-- Reading back the digit rendering of `n` gives `n`. -/
theorem digitsToNat_natDigitsBE (n : Nat) : digitsToNat (natDigitsBE n) = n := by
  have h := digitsToNat_accum (Nat.digits 10 n)
    (fun d hd => Nat.digits_lt_base (by norm_num) hd) 0
  simpa [digitsToNat, natDigitsBE, Nat.ofDigits_digits] using h

/-- Leading zeros do not change the value a digit run denotes. -/
theorem digitsToNat_replicate_zero (k : Nat) (l : JString) :
    digitsToNat (List.replicate k '0' ++ l) = digitsToNat l := by
  induction k with
  | zero => rfl
  | succ k2 ih =>
    rw [List.replicate_succ, List.cons_append]
    have h0 : 10 * 0 + ('0'.toNat - 48) = 0 := by decide
    simp only [digitsToNat, List.foldl_cons, h0]
    exact ih

/-- Zero-padding preserves the denoted value. -/
theorem digitsToNat_padDigits (len : Nat) (ds : JString) :
    digitsToNat (padDigits len ds) = digitsToNat ds :=
  digitsToNat_replicate_zero ..

/-- Zero-padding a digit run yields a digit run. -/
theorem padDigits_all_digits (len : Nat) (ds : JString)
    (h : ∀ c ∈ ds, isDigitChar c = true) :
    ∀ c ∈ padDigits len ds, isDigitChar c = true := by
  intro c hc
  rw [padDigits, List.mem_append] at hc
  rcases hc with hc | hc
  · rw [List.eq_of_mem_replicate hc]; decide
  · exact h c hc

/-- The length of a padded digit run. -/
theorem padDigits_length (len : Nat) (ds : JString) :
    (padDigits len ds).length = max len ds.length := by
  simp [padDigits]
  omega

/-- `takeDigits` consumes exactly a leading digit run: with every character of
`ds` a digit and `rest` opening with a non-digit (or empty), the split lands
between them. -/
theorem takeDigits_of_digits (ds rest : JString)
    (h : ∀ c ∈ ds, isDigitChar c = true)
    (hstop : ∀ c t2, rest = c :: t2 → isDigitChar c = false) :
    takeDigits (ds ++ rest) = (ds, rest) := by
  induction ds with
  | nil =>
    rw [List.nil_append]
    cases rest with
    | nil => rfl
    | cons c t2 => simp [takeDigits, hstop c t2 rfl]
  | cons c t ih =>
    rw [List.cons_append]
    simp [takeDigits, h c (List.mem_cons_self ..),
      ih (fun x hx => h x (List.mem_cons_of_mem _ hx))]

/-- The head of a `numDelim` remainder, if any, is not a digit. -/
theorem numDelim_head_not_digit (rest : JString) (h : numDelim rest) :
    ∀ c t2, rest = c :: t2 → isDigitChar c = false := by
  intro c t2 hrt
  subst hrt
  exact h.1

theorem numDelim_nil : numDelim [] := trivial

theorem numDelim_comma (x : JString) : numDelim (',' :: x) := ⟨by decide, by decide⟩

theorem numDelim_rbracket (x : JString) : numDelim (']' :: x) := ⟨by decide, by decide⟩

theorem numDelim_rbrace (x : JString) : numDelim ('}' :: x) := ⟨by decide, by decide⟩

/-- A digit character is none of the structural characters of the grammar. -/
theorem isDigitChar_ne (c : Char) (h : isDigitChar c = true) :
    c ≠ '-' ∧ c ≠ 'n' ∧ c ≠ 't' ∧ c ≠ 'f' ∧ c ≠ '"' ∧ c ≠ '[' ∧ c ≠ '{' ∧
    c ≠ ']' ∧ c ≠ '}' ∧ c ≠ ',' ∧ c ≠ ':' := by
  refine ⟨?_, ?_, ?_, ?_, ?_, ?_, ?_, ?_, ?_, ?_, ?_⟩ <;>
    (rintro rfl; exact absurd h (by decide))

/-- Parsing an unsigned integer rendering before a `numDelim` remainder. -/
theorem parseUnsigned_int (ds : JString) (hne : ds ≠ [])
    (hd : ∀ c ∈ ds, isDigitChar c = true) (rest : JString) (hrest : numDelim rest) :
    parseUnsigned (ds ++ rest) = some (.intV ((digitsToNat ds : Nat) : Int), rest) := by
  have htd : takeDigits (ds ++ rest) = (ds, rest) :=
    takeDigits_of_digits ds rest hd (numDelim_head_not_digit rest hrest)
  simp only [parseUnsigned, htd]
  rw [if_neg hne]
  cases rest with
  | nil => rfl
  | cons c r2 =>
    obtain ⟨_, h2⟩ := hrest
    simp only
    rw [if_neg h2]

/-- Parsing an integer-dot-fraction rendering before a `numDelim` remainder. -/
theorem parseUnsigned_real_parts (I F : JString) (hIne : I ≠ [])
    (hI : ∀ c ∈ I, isDigitChar c = true) (hFne : F ≠ [])
    (hF : ∀ c ∈ F, isDigitChar c = true) (rest : JString) (hrest : numDelim rest) :
    parseUnsigned (I ++ '.' :: (F ++ rest)) =
      some (.realV ((digitsToNat (I ++ F) : Nat) : Int) (F.length - 1), rest) := by
  have htd : takeDigits (I ++ '.' :: (F ++ rest)) = (I, '.' :: (F ++ rest)) :=
    takeDigits_of_digits I _ hI
      (fun c t2 hh => by injection hh with h1 _; rw [← h1]; decide)
  have htd2 : takeDigits (F ++ rest) = (F, rest) :=
    takeDigits_of_digits F rest hF (numDelim_head_not_digit rest hrest)
  simp only [parseUnsigned, htd]
  rw [if_neg hIne]
  simp [htd2, hFne]

/-- The display digit run is never empty. -/
theorem natDigitsDisplay_ne_nil (n : Nat) : natDigitsDisplay n ≠ [] := by
  by_cases h : n = 0
  · simp [natDigitsDisplay, h]
  · simp [natDigitsDisplay, h, natDigitsBE_ne_nil n h]

/-- The display digit run consists of digits. -/
theorem natDigitsDisplay_all_digits (n : Nat) :
    ∀ c ∈ natDigitsDisplay n, isDigitChar c = true := by
  intro c hc
  by_cases h : n = 0
  · rw [natDigitsDisplay, if_pos h] at hc
    simp only [List.mem_singleton] at hc
    subst hc
    decide
  · rw [natDigitsDisplay, if_neg h] at hc
    exact natDigitsBE_all_digits n c hc

/-- Reading back the display digit run of `n` gives `n`. -/
theorem digitsToNat_natDigitsDisplay (n : Nat) : digitsToNat (natDigitsDisplay n) = n := by
  by_cases h : n = 0
  · rw [natDigitsDisplay, if_pos h, h]
    decide
  · rw [natDigitsDisplay, if_neg h]
    exact digitsToNat_natDigitsBE n

/-- An integer rendering is never empty. -/
theorem writeIntChars_ne_nil (n : Int) : writeIntChars n ≠ [] := by
  by_cases h : n < 0 <;> simp [writeIntChars, h, natDigitsDisplay_ne_nil]

/-- An integer rendering starts with the sign or a digit. -/
theorem writeIntChars_head (n : Int) (c : Char) (t : JString)
    (h : writeIntChars n = c :: t) : c = '-' ∨ isDigitChar c = true := by
  by_cases hn : n < 0
  · left
    rw [writeIntChars, if_pos hn, List.cons_append, List.cons.injEq] at h
    exact h.1.symm
  · right
    rw [writeIntChars, if_neg hn, List.nil_append] at h
    exact natDigitsDisplay_all_digits _ c (by rw [h]; simp)

/-- The number parser inverts the integer rendering before a `numDelim`
remainder. -/
theorem parseNumber_writeIntChars (n : Int) (rest : JString) (hr : numDelim rest) :
    parseNumber (writeIntChars n ++ rest) = some (.intV n, rest) := by
  have hpu : parseUnsigned (natDigitsDisplay n.natAbs ++ rest) =
      some (.intV ((n.natAbs : Nat) : Int), rest) := by
    rw [parseUnsigned_int _ (natDigitsDisplay_ne_nil _)
        (natDigitsDisplay_all_digits _) rest hr, digitsToNat_natDigitsDisplay]
  by_cases hn : n < 0
  · have hw : writeIntChars n ++ rest = '-' :: (natDigitsDisplay n.natAbs ++ rest) := by
      rw [writeIntChars, if_pos hn]
      simp
    rw [hw]
    simp only [parseNumber, if_pos rfl]
    rw [hpu]
    simp only [Option.map_some', negJson]
    have hneg : -((n.natAbs : Nat) : Int) = n := by omega
    rw [hneg]
    simp
  · have hw : writeIntChars n ++ rest = natDigitsDisplay n.natAbs ++ rest := by
      rw [writeIntChars, if_neg hn]
      simp
    obtain ⟨c, t, hct⟩ : ∃ c t, natDigitsDisplay n.natAbs = c :: t :=
      List.exists_cons_of_ne_nil (natDigitsDisplay_ne_nil _)
    have hcd : isDigitChar c = true := natDigitsDisplay_all_digits _ c (by rw [hct]; simp)
    have hcne : c ≠ '-' := (isDigitChar_ne c hcd).1
    rw [hw, hct, List.cons_append]
    simp only [parseNumber]
    rw [if_neg hcne, ← List.cons_append, ← hct, hpu]
    have hpos : ((n.natAbs : Nat) : Int) = n := by omega
    rw [hpos]

/-- The shape of a real rendering: optional sign, then a nonempty integer
digit run, a point, and a nonempty fraction run of exactly `e + 1` digits,
together denoting the absolute mantissa. -/
theorem writeRealChars_shape (m : Int) (e : Nat) :
    ∃ I F, writeRealChars m e = (if m < 0 then ['-'] else []) ++ (I ++ '.' :: F) ∧
      I ≠ [] ∧ F ≠ [] ∧ (∀ c ∈ I, isDigitChar c = true) ∧
      (∀ c ∈ F, isDigitChar c = true) ∧
      digitsToNat (I ++ F) = m.natAbs ∧ F.length = e + 1 := by
  set ds := padDigits (e + 2) (natDigitsBE m.natAbs) with hds
  have hdig : ∀ c ∈ ds, isDigitChar c = true :=
    padDigits_all_digits _ _ (natDigitsBE_all_digits _)
  have hlen : e + 2 ≤ ds.length := by
    rw [hds, padDigits_length]
    omega
  refine ⟨ds.take (ds.length - (e + 1)), ds.drop (ds.length - (e + 1)), ?_, ?_, ?_, ?_, ?_, ?_, ?_⟩
  · rw [writeRealChars]
    simp [List.append_assoc]
  · have : (ds.take (ds.length - (e + 1))).length = ds.length - (e + 1) := by
      rw [List.length_take]
      omega
    intro hnil
    rw [hnil] at this
    simp at this
    omega
  · have : (ds.drop (ds.length - (e + 1))).length = e + 1 := by
      rw [List.length_drop]
      omega
    intro hnil
    rw [hnil] at this
    simp at this
  · exact fun c hc => hdig c (List.take_subset _ _ hc)
  · exact fun c hc => hdig c (List.drop_subset _ _ hc)
  · rw [List.take_append_drop, hds, digitsToNat_padDigits, digitsToNat_natDigitsBE]
  · rw [List.length_drop]
    omega

/-- The number parser inverts the real rendering before a `numDelim`
remainder. -/
theorem parseNumber_writeRealChars (m : Int) (e : Nat) (rest : JString)
    (hr : numDelim rest) :
    parseNumber (writeRealChars m e ++ rest) = some (.realV m e, rest) := by
  obtain ⟨I, F, hshape, hIne, hFne, hI, hF, hval, hFlen⟩ := writeRealChars_shape m e
  have hpu : parseUnsigned (I ++ '.' :: (F ++ rest)) =
      some (.realV ((m.natAbs : Nat) : Int) e, rest) := by
    rw [parseUnsigned_real_parts I F hIne hI hFne hF rest hr, hval, hFlen]
    norm_num
  by_cases hm : m < 0
  · have hw : writeRealChars m e ++ rest = '-' :: (I ++ '.' :: (F ++ rest)) := by
      rw [hshape, if_pos hm]
      simp
    rw [hw]
    simp only [parseNumber, if_pos rfl]
    rw [hpu]
    simp only [Option.map_some', negJson]
    have hneg : -((m.natAbs : Nat) : Int) = m := by omega
    rw [hneg]
    simp
  · have hw : writeRealChars m e ++ rest = I ++ '.' :: (F ++ rest) := by
      rw [hshape, if_neg hm]
      simp
    obtain ⟨c, t, hct⟩ : ∃ c t, I = c :: t := List.exists_cons_of_ne_nil hIne
    have hcd : isDigitChar c = true := hI c (by rw [hct]; simp)
    have hcne : c ≠ '-' := (isDigitChar_ne c hcd).1
    rw [hw, hct, List.cons_append]
    simp only [parseNumber]
    rw [if_neg hcne, ← List.cons_append, ← hct, hpu]
    have hpos : ((m.natAbs : Nat) : Int) = m := by omega
    rw [hpos]

/-- Parsing one escaped character undoes its escaping. -/
theorem parseStringBody_escape (c : Char) (rest : JString) :
    parseStringBody (escapeJsonChar c ++ rest) =
      (parseStringBody rest).map (fun p => (c :: p.1, p.2)) := by
  by_cases h1 : c = '"'
  · subst h1
    rcases hp : parseStringBody rest with _ | ⟨s, r⟩ <;>
      simp [escapeJsonChar, parseStringBody, unescapeJsonChar, hp]
  · by_cases h2 : c = '\\'
    · subst h2
      rcases hp : parseStringBody rest with _ | ⟨s, r⟩ <;>
        simp [escapeJsonChar, parseStringBody, unescapeJsonChar, hp]
    · by_cases h3 : c = '\n'
      · subst h3
        rcases hp : parseStringBody rest with _ | ⟨s, r⟩ <;>
          simp [escapeJsonChar, parseStringBody, unescapeJsonChar, hp]
      · by_cases h4 : c = '\t'
        · subst h4
          rcases hp : parseStringBody rest with _ | ⟨s, r⟩ <;>
            simp [escapeJsonChar, parseStringBody, unescapeJsonChar, hp]
        · by_cases h5 : c = '\r'
          · subst h5
            rcases hp : parseStringBody rest with _ | ⟨s, r⟩ <;>
              simp [escapeJsonChar, parseStringBody, unescapeJsonChar, hp]
          · by_cases h6 : c = Char.ofNat 8
            · subst h6
              rcases hp : parseStringBody rest with _ | ⟨s, r⟩ <;>
                simp [escapeJsonChar, parseStringBody, unescapeJsonChar, hp]
            · by_cases h7 : c = Char.ofNat 12
              · subst h7
                rcases hp : parseStringBody rest with _ | ⟨s, r⟩ <;>
                  simp [escapeJsonChar, parseStringBody, unescapeJsonChar, hp]
              · have he : escapeJsonChar c = [c] := by
                  simp [escapeJsonChar, h1, h2, h3, h4, h5, h6, h7]
                rw [he, List.cons_append]
                rcases hp : parseStringBody rest with _ | ⟨s, r⟩ <;>
                  (rw [parseStringBody.eq_def]; simp [h1, h2, hp])

/-- Parsing an escaped string body stops exactly at the closing quote. -/
theorem parseStringBody_escapeList (s : JString) :
    ∀ rest, parseStringBody (escapeJsonList s ++ '"' :: rest) = some (s, rest) := by
  induction s with
  | nil =>
    intro rest
    rw [show escapeJsonList [] ++ '"' :: rest = '"' :: rest from rfl,
        parseStringBody.eq_def]
    simp
  | cons c s2 ih =>
    intro rest
    rw [show escapeJsonList (c :: s2) = escapeJsonChar c ++ escapeJsonList s2 from rfl,
        List.append_assoc, parseStringBody_escape, ih]
    rfl

/-- A rendered value starts with a character that closes nothing. -/
theorem writeValue_head (v : JsonValue) :
    ∃ c t, writeValue v = c :: t ∧ c ≠ ']' ∧ c ≠ '}' := by
  cases v with
  | nullV => exact ⟨'n', _, rfl, by decide, by decide⟩
  | boolV b =>
    cases b with
    | true => exact ⟨'t', _, rfl, by decide, by decide⟩
    | false => exact ⟨'f', _, rfl, by decide, by decide⟩
  | strV s => exact ⟨'"', _, rfl, by decide, by decide⟩
  | arrV es => exact ⟨'[', _, rfl, by decide, by decide⟩
  | objV ms => exact ⟨'{', _, rfl, by decide, by decide⟩
  | intV n =>
    obtain ⟨c, t, hct⟩ : ∃ c t, writeIntChars n = c :: t :=
      List.exists_cons_of_ne_nil (writeIntChars_ne_nil n)
    rcases writeIntChars_head n c t hct with hc | hc
    · exact ⟨c, t, hct, by rw [hc]; decide, by rw [hc]; decide⟩
    · obtain ⟨_, _, _, _, _, _, _, hrb, hrc, _, _⟩ := isDigitChar_ne c hc
      exact ⟨c, t, hct, hrb, hrc⟩
  | realV m e =>
    obtain ⟨I, F, hshape, hIne, _, hI, _, _, _⟩ := writeRealChars_shape m e
    by_cases hm : m < 0
    · refine ⟨'-', I ++ '.' :: F, ?_, by decide, by decide⟩
      rw [show writeValue (.realV m e) = writeRealChars m e from rfl, hshape, if_pos hm]
      rfl
    · obtain ⟨c, t, hct⟩ : ∃ c t, I = c :: t := List.exists_cons_of_ne_nil hIne
      have hcd : isDigitChar c = true := hI c (by rw [hct]; simp)
      obtain ⟨_, _, _, _, _, _, _, hrb, hrc, _, _⟩ := isDigitChar_ne c hcd
      refine ⟨c, t ++ '.' :: F, ?_, hrb, hrc⟩
      rw [show writeValue (.realV m e) = writeRealChars m e from rfl, hshape, if_neg hm,
          List.nil_append, hct]
      rfl

/-- A nonempty element rendering begins with its first element's rendering. -/
theorem writeElems_cons_eq (e : JsonValue) (es : List JsonValue) :
    ∃ Y, writeElems (e :: es) = writeValue e ++ Y := by
  cases es with
  | nil => exact ⟨[], by simp [writeElems]⟩
  | cons x xs => exact ⟨',' :: writeElems (x :: xs), rfl⟩

/-- Routing the parser through its number branch. -/
theorem parseValue_number_route (f : Nat) (c : Char) (t : JString)
    (h : c = '-' ∨ isDigitChar c = true) :
    parseValue (f + 1) (c :: t) = parseNumber (c :: t) := by
  rcases h with rfl | hd
  · simp [parseValue]
  · obtain ⟨_, hn, ht, hf', hq, hbk, hbc, _, _, _, _⟩ := isDigitChar_ne c hd
    simp [parseValue, hn, ht, hf', hq, hbk, hbc]

/-- Routing the parser through its nonempty-array branch. -/
theorem parseValue_bracket (f : Nat) (c2 : Char) (r2 : JString) (hc2 : c2 ≠ ']') :
    parseValue (f + 1) ('[' :: c2 :: r2) =
      match parseElems f (c2 :: r2) with
      | some (es, r) => some (.arrV es, r)
      | none => none := by
  simp [parseValue, hc2]

/-- Routing the parser through its nonempty-object branch. -/
theorem parseValue_brace (f : Nat) (c2 : Char) (r2 : JString) (hc2 : c2 ≠ '}') :
    parseValue (f + 1) ('{' :: c2 :: r2) =
      match parseMembers f (c2 :: r2) with
      | some (ms, r) => some (.objV ms, r)
      | none => none := by
  simp [parseValue, hc2]

/-- Unfolding of `writeMembers` past its first member when more follow. -/
theorem writeMembers_cons_cons (k : JString) (v : JsonValue) (m2 : JString × JsonValue)
    (ms2 : List (JString × JsonValue)) :
    writeMembers ((k, v) :: m2 :: ms2) =
      writeStringChars k ++ ':' :: (writeValue v ++ ',' :: writeMembers (m2 :: ms2)) := by
  simp only [writeMembers]
  simp [List.append_assoc]

/-- A nonempty member rendering begins with the opening quote of its first key. -/
theorem writeMembers_cons_shape (k : JString) (v : JsonValue)
    (ms : List (JString × JsonValue)) :
    ∃ T, writeMembers ((k, v) :: ms) = '"' :: T := by
  cases ms with
  | nil =>
    refine ⟨escapeJsonList k ++ ['"'] ++ ':' :: writeValue v, ?_⟩
    rw [show writeMembers [(k, v)] = writeStringChars k ++ ':' :: writeValue v from rfl,
        writeStringChars]
    simp
  | cons m2 ms2 =>
    refine ⟨escapeJsonList k ++ ['"'] ++
      ':' :: (writeValue v ++ ',' :: writeMembers (m2 :: ms2)), ?_⟩
    rw [writeMembers_cons_cons, writeStringChars]
    simp

mutual

/-- Parsing a rendered value before a `numDelim` remainder recovers it. -/
theorem rt_val : ∀ (v : JsonValue) (fuel : Nat) (rest : JString),
    (writeValue v).length < fuel → numDelim rest →
    parseValue fuel (writeValue v ++ rest) = some (v, rest)
  | .nullV, fuel, rest, hf, _ => by
    cases fuel with
    | zero => exact absurd hf (Nat.not_lt_zero _)
    | succ f => simp [writeValue, parseValue]
  | .boolV true, fuel, rest, hf, _ => by
    cases fuel with
    | zero => exact absurd hf (Nat.not_lt_zero _)
    | succ f => simp [writeValue, parseValue]
  | .boolV false, fuel, rest, hf, _ => by
    cases fuel with
    | zero => exact absurd hf (Nat.not_lt_zero _)
    | succ f => simp [writeValue, parseValue]
  | .intV n, fuel, rest, hf, hr => by
    cases fuel with
    | zero => exact absurd hf (Nat.not_lt_zero _)
    | succ f =>
      obtain ⟨c, t, hct⟩ : ∃ c t, writeIntChars n = c :: t :=
        List.exists_cons_of_ne_nil (writeIntChars_ne_nil n)
      have hc := writeIntChars_head n c t hct
      rw [show writeValue (.intV n) = writeIntChars n from rfl, hct, List.cons_append,
          parseValue_number_route f c _ hc, ← List.cons_append, ← hct,
          parseNumber_writeIntChars n rest hr]
  | .realV m e, fuel, rest, hf, hr => by
    cases fuel with
    | zero => exact absurd hf (Nat.not_lt_zero _)
    | succ f =>
      have hhead : ∃ c t, writeRealChars m e = c :: t ∧
          (c = '-' ∨ isDigitChar c = true) := by
        obtain ⟨I, F, hshape, hIne, _, hI, _, _, _⟩ := writeRealChars_shape m e
        by_cases hm : m < 0
        · exact ⟨'-', I ++ '.' :: F, by rw [hshape, if_pos hm]; rfl, Or.inl rfl⟩
        · obtain ⟨c, t, hct⟩ := List.exists_cons_of_ne_nil hIne
          refine ⟨c, t ++ '.' :: F, ?_, Or.inr (hI c (by rw [hct]; simp))⟩
          rw [hshape, if_neg hm, List.nil_append, hct]
          rfl
      obtain ⟨c, t, hct, hc⟩ := hhead
      rw [show writeValue (.realV m e) = writeRealChars m e from rfl, hct, List.cons_append,
          parseValue_number_route f c _ hc, ← List.cons_append, ← hct,
          parseNumber_writeRealChars m e rest hr]
  | .strV s, fuel, rest, hf, _ => by
    cases fuel with
    | zero => exact absurd hf (Nat.not_lt_zero _)
    | succ f =>
      have harg : writeValue (.strV s) ++ rest =
          '"' :: (escapeJsonList s ++ '"' :: rest) := by
        rw [show writeValue (.strV s) = writeStringChars s from rfl, writeStringChars]
        simp
      rw [harg]
      simp [parseValue, parseStringBody_escapeList]
  | .arrV [], fuel, rest, hf, _ => by
    cases fuel with
    | zero => exact absurd hf (Nat.not_lt_zero _)
    | succ f =>
      have harg : writeValue (.arrV []) ++ rest = '[' :: ']' :: rest := by
        rw [show writeValue (.arrV []) = '[' :: (writeElems [] ++ [']']) from rfl]
        simp [writeElems]
      rw [harg]
      simp [parseValue]
  | .arrV (e :: es), fuel, rest, hf, _ => by
    cases fuel with
    | zero => exact absurd hf (Nat.not_lt_zero _)
    | succ f =>
      have hkey := rt_elems e es f rest (by
        have hlen : (writeValue (.arrV (e :: es))).length =
            (writeElems (e :: es)).length + 2 := by
          rw [show writeValue (.arrV (e :: es)) =
              '[' :: (writeElems (e :: es) ++ [']']) from rfl]
          simp
        omega)
      obtain ⟨Y, hY⟩ := writeElems_cons_eq e es
      obtain ⟨c2, t2, hct, hne1, _⟩ := writeValue_head e
      have hsplit : writeElems (e :: es) ++ ']' :: rest =
          c2 :: (t2 ++ Y ++ ']' :: rest) := by
        rw [hY, hct]
        simp
      have harg : writeValue (.arrV (e :: es)) ++ rest =
          '[' :: (writeElems (e :: es) ++ ']' :: rest) := by
        rw [show writeValue (.arrV (e :: es)) =
            '[' :: (writeElems (e :: es) ++ [']']) from rfl]
        simp
      rw [harg, hsplit, parseValue_bracket f c2 _ hne1, ← hsplit, hkey]
  | .objV [], fuel, rest, hf, _ => by
    cases fuel with
    | zero => exact absurd hf (Nat.not_lt_zero _)
    | succ f =>
      have harg : writeValue (.objV []) ++ rest = '{' :: '}' :: rest := by
        rw [show writeValue (.objV []) = '{' :: (writeMembers [] ++ ['}']) from rfl]
        simp [writeMembers]
      rw [harg]
      simp [parseValue]
  | .objV ((k, v) :: ms), fuel, rest, hf, _ => by
    cases fuel with
    | zero => exact absurd hf (Nat.not_lt_zero _)
    | succ f =>
      have hkey := rt_members (k, v) ms f rest (by
        have hlen : (writeValue (.objV ((k, v) :: ms))).length =
            (writeMembers ((k, v) :: ms)).length + 2 := by
          rw [show writeValue (.objV ((k, v) :: ms)) =
              '{' :: (writeMembers ((k, v) :: ms) ++ ['}']) from rfl]
          simp
        omega)
      obtain ⟨T, hT⟩ := writeMembers_cons_shape k v ms
      have hsplit : writeMembers ((k, v) :: ms) ++ '}' :: rest =
          '"' :: (T ++ '}' :: rest) := by
        rw [hT]
        simp
      have harg : writeValue (.objV ((k, v) :: ms)) ++ rest =
          '{' :: (writeMembers ((k, v) :: ms) ++ '}' :: rest) := by
        rw [show writeValue (.objV ((k, v) :: ms)) =
            '{' :: (writeMembers ((k, v) :: ms) ++ ['}']) from rfl]
        simp
      rw [harg, hsplit, parseValue_brace f '"' _ (by decide), ← hsplit, hkey]

/-- Parsing rendered elements up to the closing bracket recovers them. -/
theorem rt_elems : ∀ (e : JsonValue) (es : List JsonValue) (fuel : Nat) (rest : JString),
    (writeElems (e :: es)).length + 1 < fuel →
    parseElems fuel (writeElems (e :: es) ++ ']' :: rest) = some (e :: es, rest)
  | e, [], fuel, rest, hf => by
    cases fuel with
    | zero => exact absurd hf (Nat.not_lt_zero _)
    | succ f =>
      have hfe : (writeValue e).length < f := by
        rw [show writeElems [e] = writeValue e from rfl] at hf
        omega
      have hv := rt_val e f (']' :: rest) hfe (numDelim_rbracket rest)
      rw [show writeElems [e] = writeValue e from rfl]
      simp only [parseElems]
      rw [hv]
      simp
  | e, x :: xs, fuel, rest, hf => by
    cases fuel with
    | zero => exact absurd hf (Nat.not_lt_zero _)
    | succ f =>
      have hfe : (writeValue e).length < f := by
        rw [show writeElems (e :: x :: xs) =
            writeValue e ++ ',' :: writeElems (x :: xs) from rfl] at hf
        simp at hf
        omega
      have hfx : (writeElems (x :: xs)).length + 1 < f := by
        rw [show writeElems (e :: x :: xs) =
            writeValue e ++ ',' :: writeElems (x :: xs) from rfl] at hf
        simp at hf
        omega
      have hv := rt_val e f (',' :: (writeElems (x :: xs) ++ ']' :: rest)) hfe
        (numDelim_comma _)
      have hkey := rt_elems x xs f rest hfx
      have harg : writeElems (e :: x :: xs) ++ ']' :: rest =
          writeValue e ++ ',' :: (writeElems (x :: xs) ++ ']' :: rest) := by
        rw [show writeElems (e :: x :: xs) =
            writeValue e ++ ',' :: writeElems (x :: xs) from rfl]
        simp
      rw [harg]
      simp only [parseElems]
      rw [hv]
      simp [hkey]

/-- Parsing rendered members up to the closing brace recovers them. -/
theorem rt_members : ∀ (kv : JString × JsonValue) (ms : List (JString × JsonValue))
    (fuel : Nat) (rest : JString),
    (writeMembers (kv :: ms)).length + 1 < fuel →
    parseMembers fuel (writeMembers (kv :: ms) ++ '}' :: rest) = some (kv :: ms, rest)
  | (k, v), [], fuel, rest, hf => by
    cases fuel with
    | zero => exact absurd hf (Nat.not_lt_zero _)
    | succ f =>
      have hfe : (writeValue v).length < f := by
        rw [show writeMembers [(k, v)] =
            writeStringChars k ++ ':' :: writeValue v from rfl] at hf
        simp [writeStringChars] at hf
        omega
      have hv := rt_val v f ('}' :: rest) hfe (numDelim_rbrace _)
      have harg : writeMembers [(k, v)] ++ '}' :: rest =
          '"' :: (escapeJsonList k ++ '"' :: (':' :: (writeValue v ++ '}' :: rest))) := by
        rw [show writeMembers [(k, v)] =
            writeStringChars k ++ ':' :: writeValue v from rfl, writeStringChars]
        simp
      rw [harg]
      simp [parseMembers, parseStringBody_escapeList, hv]
  | (k, v), m2 :: ms2, fuel, rest, hf => by
    cases fuel with
    | zero => exact absurd hf (Nat.not_lt_zero _)
    | succ f =>
      have hfe : (writeValue v).length < f := by
        rw [writeMembers_cons_cons] at hf
        simp [writeStringChars] at hf
        omega
      have hfx : (writeMembers (m2 :: ms2)).length + 1 < f := by
        rw [writeMembers_cons_cons] at hf
        simp [writeStringChars] at hf
        omega
      have hv := rt_val v f (',' :: (writeMembers (m2 :: ms2) ++ '}' :: rest)) hfe
        (numDelim_comma _)
      have hkey := rt_members m2 ms2 f rest hfx
      have harg : writeMembers ((k, v) :: m2 :: ms2) ++ '}' :: rest =
          '"' :: (escapeJsonList k ++ '"' ::
            (':' :: (writeValue v ++ ',' :: (writeMembers (m2 :: ms2) ++ '}' :: rest)))) := by
        rw [writeMembers_cons_cons, writeStringChars]
        simp
      rw [harg]
      simp [parseMembers, parseStringBody_escapeList, hv, hkey]

end

/-- C5: for every constructible Value tree V, parsing the compact
serialization of V yields a Value structurally equal to V, with array element
order and object member insertion order preserved (the embedding keeps both as
ordered lists, so structural equality is order-sensitive):
`parse(write(V)) == V`. -/
theorem parse_write (v : JsonValue) : parse (write v) = some v := by
  have hv := rt_val v ((writeValue v).length + 1) [] (by omega) numDelim_nil
  rw [List.append_nil] at hv
  simp only [parse, write]
  rw [hv]
